import Mathlib

/-!
Verification of the Screeps pathfinding engine core (`pf.h`).

This file gives a shallow embedding, in Lean, of the data structures and
operations of the native pathfinder: the world coordinate plane
(`world_position_t`), per-room terrain/cost lookup (`room_info_t`), the
generation-stamped open/closed set (`open_closed_t`) and the fixed-capacity
binary min-heap with in-place priority updates (`heap_t`).  Machine integers
are modelled as `Nat`/`Int` with explicit reductions modulo `2^8`, `2^16` or
`2^32` exactly where the C++ arithmetic can wrap; fixed C arrays are modelled
as total functions from `Nat`.
-/

/-- The eight compass directions, in the order of the C++ `direction_t` enum. -/
inductive direction_t
| TOP
| TOP_RIGHT
| RIGHT
| BOTTOM_RIGHT
| BOTTOM
| BOTTOM_LEFT
| LEFT
| TOP_LEFT
deriving DecidableEq

/-- Reduction of an `Int` to an unsigned 16-bit value, as performed by the
implicit conversion to `uint16_t` in the `world_position_t` constructor. -/
def u16 (z : Int) : Nat := (z % 65536).toNat

/-- Truncation of an `Int` to a signed 8-bit value, as performed by the
conversion to `int8_t` in `world_position_t::direction_to`. -/
def toInt8 (z : Int) : Int := (z + 128) % 256 - 128

/-- A tile position on the continuous global plane; `xx`, `yy` hold the values
of the `uint16_t` coordinates of the C++ `world_position_t`. -/
structure world_position_t where
  xx : Nat
  yy : Nat
deriving DecidableEq

/-- `world_position_t::position_in_direction`: one 8-directional step.  The
C++ code computes `xx ± 1` / `yy ± 1` in `int` and converts back to
`uint16_t`, hence the reduction `u16` on every coordinate that is stepped. -/
def world_position_t.position_in_direction (p : world_position_t) (dir : direction_t) : world_position_t :=
  match dir with
  | direction_t.TOP => ⟨p.xx, u16 ((p.yy : Int) - 1)⟩
  | direction_t.TOP_RIGHT => ⟨u16 ((p.xx : Int) + 1), u16 ((p.yy : Int) - 1)⟩
  | direction_t.RIGHT => ⟨u16 ((p.xx : Int) + 1), p.yy⟩
  | direction_t.BOTTOM_RIGHT => ⟨u16 ((p.xx : Int) + 1), u16 ((p.yy : Int) + 1)⟩
  | direction_t.BOTTOM => ⟨p.xx, u16 ((p.yy : Int) + 1)⟩
  | direction_t.BOTTOM_LEFT => ⟨u16 ((p.xx : Int) - 1), u16 ((p.yy : Int) + 1)⟩
  | direction_t.LEFT => ⟨u16 ((p.xx : Int) - 1), p.yy⟩
  | direction_t.TOP_LEFT => ⟨u16 ((p.xx : Int) - 1), u16 ((p.yy : Int) - 1)⟩

/-- `world_position_t::direction_to`: the deltas are truncated through
`int8_t` before their signs are inspected.  The C++ function returns the
out-of-range enum value `(direction_t)-1` when both truncated deltas are
zero; that value is modelled as `none`. -/
def world_position_t.direction_to (p pos : world_position_t) : Option direction_t :=
  let dx : Int := toInt8 ((pos.xx : Int) - (p.xx : Int))
  let dy : Int := toInt8 ((pos.yy : Int) - (p.yy : Int))
  if dx > 0 then
    if dy > 0 then some direction_t.BOTTOM_RIGHT
    else if dy < 0 then some direction_t.TOP_RIGHT
    else some direction_t.RIGHT
  else if dx < 0 then
    if dy > 0 then some direction_t.BOTTOM_LEFT
    else if dy < 0 then some direction_t.TOP_LEFT
    else some direction_t.LEFT
  else
    if dy > 0 then some direction_t.BOTTOM
    else if dy < 0 then some direction_t.TOP
    else none

/-- Modelled from the spec: the direction selected purely by the signs of the
exact coordinate deltas (`q.xx - p.xx`, `q.yy - p.yy`), with a zero delta on
one axis selecting the cardinal direction of the other axis; the
same-position case is `none`.  This is the specification-side definition
against which `world_position_t.direction_to` is compared. -/
def specDirectionTo (p q : world_position_t) : Option direction_t :=
  let dx : Int := (q.xx : Int) - (p.xx : Int)
  let dy : Int := (q.yy : Int) - (p.yy : Int)
  if dx > 0 then
    if dy > 0 then some direction_t.BOTTOM_RIGHT
    else if dy < 0 then some direction_t.TOP_RIGHT
    else some direction_t.RIGHT
  else if dx < 0 then
    if dy > 0 then some direction_t.BOTTOM_LEFT
    else if dy < 0 then some direction_t.TOP_LEFT
    else some direction_t.LEFT
  else
    if dy > 0 then some direction_t.BOTTOM
    else if dy < 0 then some direction_t.TOP
    else none

/-- `world_position_t::range_to`: maximum of the absolute coordinate
differences, computed branch-wise on the unsigned values as in the source. -/
def world_position_t.range_to (p pos : world_position_t) : Nat :=
  max
    (if pos.xx > p.xx then pos.xx - p.xx else p.xx - pos.xx)
    (if pos.yy > p.yy then pos.yy - p.yy else p.yy - pos.yy)

/-- A room's address on the global room grid (the byte pair of the C++
`map_position_t`). -/
structure map_position_t where
  xx : Nat
  yy : Nat
deriving DecidableEq

/-- `world_position_t::map_position`: integer division of both coordinates
by the room side length 50. -/
def world_position_t.map_position (p : world_position_t) : map_position_t :=
  ⟨p.xx / 50, p.yy / 50⟩

/-- Modelled from the spec: the static default cost matrix
`room_info_t::cost_matrix0` is defined outside this header and is all
zero, meaning "no override for any tile". -/
def cost_matrix0 : Nat → Nat → Nat := fun _ _ => 0

/-- Per-room search context: `terrain` is the 2-bit-packed bitmap viewed as a
byte array (625 bytes for 2500 tiles), `cost_matrix` the per-tile override
bytes indexed `[xx][yy]`. -/
structure room_info_t where
  terrain : Nat → Nat
  cost_matrix : Nat → Nat → Nat
  pos : map_position_t

/-- The `room_info_t` constructor: a null `cost_matrix` argument (modelled as
`none`) is replaced by the static default matrix `cost_matrix0`. -/
def room_info_t.make (terrain : Nat → Nat) (cost_matrix : Option (Nat → Nat → Nat)) (pos : map_position_t) : room_info_t :=
  ⟨terrain,
    match cost_matrix with
    | none => cost_matrix0
    | some m => m,
    pos⟩

/-- `room_info_t::look`: a non-zero cost-matrix byte wins; otherwise the
2-bit terrain code of tile `xx * 50 + yy` is extracted from the packed
bitmap with shift and mask exactly as in the source. -/
def room_info_t.look (r : room_info_t) (xx yy : Nat) : Nat :=
  if r.cost_matrix xx yy ≠ 0 then r.cost_matrix xx yy
  else 0x03 &&& (r.terrain ((xx * 50 + yy) / 4)) >>> ((xx * 50 + yy) % 4 * 2)

theorem toInt8_eq_self {z : Int} (h1 : -128 ≤ z) (h2 : z ≤ 127) : toInt8 z = z := by
  unfold toInt8
  omega

theorem and3_shift (t s : Nat) :
    0x03 &&& t >>> s
      = (if t.testBit s then 1 else 0) + 2 * (if t.testBit (s + 1) then 1 else 0) := by
  rw [Nat.and_comm]
  have h3 : (0x03 : Nat) = 2 ^ 2 - 1 := by norm_num
  rw [h3, Nat.and_pow_two_sub_one_eq_mod, Nat.shiftRight_eq_div_pow]
  rw [Nat.testBit_to_div_mod, Nat.testBit_to_div_mod]
  have hp : (2 : Nat) ^ (s + 1) = 2 ^ s * 2 := by rw [pow_succ]
  rw [hp, ← Nat.div_div_eq_div_mul]
  split_ifs <;> simp_all only [decide_eq_true_eq] <;> omega

/-- C9: `range_to` is the Chebyshev distance: the maximum of the absolute
values of the exact coordinate differences, and it is symmetric. -/
theorem range_to_chebyshev (p q : world_position_t) :
    p.range_to q = max (((q.xx : Int) - p.xx).natAbs) (((q.yy : Int) - p.yy).natAbs)
    ∧ p.range_to q = q.range_to p := by
  constructor
  · unfold world_position_t.range_to
    congr 1 <;> split_ifs <;> omega
  · unfold world_position_t.range_to
    congr 1 <;> split_ifs <;> omega

/-- C10: neighbor stepping wraps modulo `2^16` instead of clamping: stepping
`TOP` from a position with `yy = 0` yields `yy = 65535`, and stepping `LEFT`
from a position with `xx = 0` yields `xx = 65535`, the other coordinate
being unchanged. -/
theorem position_in_direction_wraps (p q : world_position_t) (hp : p.yy = 0) (hq : q.xx = 0) :
    (p.position_in_direction direction_t.TOP).yy = 65535
    ∧ (p.position_in_direction direction_t.TOP).xx = p.xx
    ∧ (q.position_in_direction direction_t.LEFT).xx = 65535
    ∧ (q.position_in_direction direction_t.LEFT).yy = q.yy := by
  unfold world_position_t.position_in_direction
  refine ⟨?_, rfl, ?_, rfl⟩
  · simp only [hp, u16]
    decide
  · simp only [hq, u16]
    decide

theorem position_in_direction_wraps_witness :
    (world_position_t.mk 7 0).yy = 0
    ∧ (world_position_t.mk 0 9).xx = 0
    ∧ ((world_position_t.mk 7 0).position_in_direction direction_t.TOP).yy = 65535
    ∧ ((world_position_t.mk 0 9).position_in_direction direction_t.LEFT).xx = 65535 :=
  ⟨rfl, rfl, (position_in_direction_wraps ⟨7, 0⟩ ⟨0, 9⟩ rfl rfl).1,
    (position_in_direction_wraps ⟨7, 0⟩ ⟨0, 9⟩ rfl rfl).2.2.1⟩

/-- C2 counterexample: for `p = (0,0)` and `q = (200,0)` the horizontal delta
`q.xx - p.xx = 200` is positive, so the claim demands `RIGHT`, but the
`int8_t` truncation makes the code see `-56` and return `LEFT`: the code
disagrees with the sign rule at this input. -/
theorem direction_to_counterexample :
    (world_position_t.mk 0 0).direction_to (world_position_t.mk 200 0) = some direction_t.LEFT
    ∧ specDirectionTo (world_position_t.mk 0 0) (world_position_t.mk 200 0) = some direction_t.RIGHT
    ∧ some direction_t.LEFT ≠ some direction_t.RIGHT := by
  refine ⟨by decide, by decide, by decide⟩

/-- C2 (amended): for distinct positions whose exact coordinate deltas both
lie within the `int8_t` range `[-128, 127]`, `direction_to` returns exactly
the compass direction selected by the signs of the deltas (and that
direction exists). -/
theorem direction_to_sign_correct (p q : world_position_t) (hne : p ≠ q)
    (hx1 : -128 ≤ (q.xx : Int) - p.xx) (hx2 : (q.xx : Int) - p.xx ≤ 127)
    (hy1 : -128 ≤ (q.yy : Int) - p.yy) (hy2 : (q.yy : Int) - p.yy ≤ 127) :
    p.direction_to q = specDirectionTo p q ∧ (specDirectionTo p q).isSome = true := by
  have ex : toInt8 ((q.xx : Int) - (p.xx : Int)) = (q.xx : Int) - (p.xx : Int) :=
    toInt8_eq_self hx1 hx2
  have ey : toInt8 ((q.yy : Int) - (p.yy : Int)) = (q.yy : Int) - (p.yy : Int) :=
    toInt8_eq_self hy1 hy2
  constructor
  · simp only [world_position_t.direction_to, specDirectionTo, ex, ey]
  · have hnz : (q.xx : Int) - p.xx ≠ 0 ∨ (q.yy : Int) - p.yy ≠ 0 := by
      rcases eq_or_ne p.xx q.xx with h1 | h1
      · rcases eq_or_ne p.yy q.yy with h2 | h2
        · exact absurd (by cases p; cases q; simp_all) hne
        · right; omega
      · left; omega
    simp only [specDirectionTo]
    split_ifs <;> simp_all <;> omega

theorem direction_to_sign_correct_witness :
    ((world_position_t.mk 3 4) ≠ (world_position_t.mk 4 5)
      ∧ -128 ≤ ((4 : Nat) : Int) - (3 : Nat) ∧ ((4 : Nat) : Int) - (3 : Nat) ≤ 127
      ∧ -128 ≤ ((5 : Nat) : Int) - (4 : Nat) ∧ ((5 : Nat) : Int) - (4 : Nat) ≤ 127)
    ∧ ((world_position_t.mk 3 4).direction_to (world_position_t.mk 4 5)
        = specDirectionTo (world_position_t.mk 3 4) (world_position_t.mk 4 5)
      ∧ (specDirectionTo (world_position_t.mk 3 4) (world_position_t.mk 4 5)).isSome = true) :=
  ⟨⟨by decide, by decide, by decide, by decide, by decide⟩,
    direction_to_sign_correct ⟨3, 4⟩ ⟨4, 5⟩ (by decide) (by decide) (by decide) (by decide) (by decide)⟩

/-- C3: for in-room tiles, `look` returns the cost-matrix byte whenever it is
non-zero, and otherwise returns the 2-bit terrain code of tile
`xx * 50 + yy`, whose bit 0 is bit `(index mod 4) * 2` and bit 1 is bit
`(index mod 4) * 2 + 1` of terrain byte `index / 4`. -/
theorem room_look_correct (r : room_info_t) (xx yy : Nat) (hx : xx < 50) (hy : yy < 50) :
    (r.cost_matrix xx yy ≠ 0 → r.look xx yy = r.cost_matrix xx yy)
    ∧ (r.cost_matrix xx yy = 0 →
        r.look xx yy
          = (if (r.terrain ((xx * 50 + yy) / 4)).testBit ((xx * 50 + yy) % 4 * 2) then 1 else 0)
            + 2 * (if (r.terrain ((xx * 50 + yy) / 4)).testBit ((xx * 50 + yy) % 4 * 2 + 1) then 1 else 0)) := by
  constructor
  · intro h
    simp [room_info_t.look, h]
  · intro h
    simp only [room_info_t.look, h, ne_eq, not_true_eq_false, if_false]
    exact and3_shift _ _

theorem room_look_correct_witness :
    ((1 : Nat) < 50 ∧ (2 : Nat) < 50)
    ∧ ((room_info_t.mk (fun _ => 9) (fun _ _ => 0) ⟨0, 0⟩).cost_matrix 1 2 = 0 →
        (room_info_t.mk (fun _ => 9) (fun _ _ => 0) ⟨0, 0⟩).look 1 2
          = (if ((9 : Nat)).testBit ((1 * 50 + 2) % 4 * 2) then 1 else 0)
            + 2 * (if ((9 : Nat)).testBit ((1 * 50 + 2) % 4 * 2 + 1) then 1 else 0)) :=
  ⟨⟨by decide, by decide⟩,
    (room_look_correct (room_info_t.mk (fun _ => 9) (fun _ _ => 0) ⟨0, 0⟩) 1 2
      (by decide) (by decide)).2⟩

/-- C8: constructing a `room_info_t` with a null cost-matrix pointer is
observably identical, through `look`, to constructing it with a pointer to an
all-zero matrix; in both cases `look` returns the terrain-derived value on
every tile. -/
theorem room_info_null_cost_matrix_default (terrain : Nat → Nat) (pos : map_position_t) (xx yy : Nat) :
    (room_info_t.make terrain none pos).look xx yy
      = (room_info_t.make terrain (some (fun _ _ => 0)) pos).look xx yy
    ∧ (room_info_t.make terrain none pos).look xx yy
      = 0x03 &&& (terrain ((xx * 50 + yy) / 4)) >>> ((xx * 50 + yy) % 4 * 2) := by
  constructor <;> rfl

/-- The generation-stamped open/closed set `open_closed_t`.  The fixed
`std::array<unsigned int, capacity>` is modelled as a total function and the
32-bit `marker` as a `Nat` kept below `2^32` by reducing every increment
modulo `4294967296`. -/
structure open_closed_t where
  list : Nat → Nat
  marker : Nat

/-- The `open_closed_t` constructor: all stamps zero, marker one. -/
def open_closed_t.init : open_closed_t := ⟨fun _ => 0, 1⟩

/-- `open_closed_t::clear`: when the marker is within 2 of `UINT_MAX`
(`4294967295`) the whole array is rewritten to zero and the marker restarts
at 1; otherwise only the marker is bumped by 2. -/
def open_closed_t.clear (s : open_closed_t) : open_closed_t :=
  if 4294967295 - 2 ≤ s.marker then ⟨fun _ => 0, 1⟩
  else ⟨s.list, (s.marker + 2) % 4294967296⟩

/-- `open_closed_t::is_open`. -/
def open_closed_t.is_open (s : open_closed_t) (index : Nat) : Bool :=
  s.list index == s.marker

/-- `open_closed_t::is_closed`; `marker + 1` is computed in `unsigned int`. -/
def open_closed_t.is_closed (s : open_closed_t) (index : Nat) : Bool :=
  s.list index == (s.marker + 1) % 4294967296

/-- `open_closed_t::open`. -/
def open_closed_t.open' (s : open_closed_t) (index : Nat) : open_closed_t :=
  ⟨fun j => if j = index then s.marker else s.list j, s.marker⟩

/-- `open_closed_t::close`; `marker + 1` is computed in `unsigned int`. -/
def open_closed_t.close (s : open_closed_t) (index : Nat) : open_closed_t :=
  ⟨fun j => if j = index then (s.marker + 1) % 4294967296 else s.list j, s.marker⟩

/-- One operation of the public `open_closed_t` interface. -/
inductive oc_op
| mark_open (index : Nat)
| mark_close (index : Nat)
| do_clear

/-- Apply one interface operation. -/
def oc_step (s : open_closed_t) (o : oc_op) : open_closed_t :=
  match o with
  | oc_op.mark_open index => s.open' index
  | oc_op.mark_close index => s.close index
  | oc_op.do_clear => s.clear

/-- The state reached from a fresh `open_closed_t` by a list of operations. -/
def oc_run (l : List oc_op) : open_closed_t :=
  l.foldl oc_step open_closed_t.init

/-- Invariant of every reachable `open_closed_t` state: the marker is odd and
stays clear of the overflow guard, and every stamp in the array is at most
`marker + 1`. -/
def oc_inv (s : open_closed_t) : Prop :=
  s.marker % 2 = 1 ∧ s.marker ≤ 4294967293 ∧ ∀ i, s.list i ≤ s.marker + 1

theorem oc_step_inv {s : open_closed_t} (o : oc_op) (h : oc_inv s) : oc_inv (oc_step s o) := by
  obtain ⟨hodd, hle, hlist⟩ := h
  cases o with
  | mark_open index =>
    refine ⟨hodd, hle, fun i => ?_⟩
    dsimp only [oc_step, open_closed_t.open']
    split_ifs
    · omega
    · exact hlist i
  | mark_close index =>
    refine ⟨hodd, hle, fun i => ?_⟩
    dsimp only [oc_step, open_closed_t.close]
    split_ifs
    · omega
    · exact hlist i
  | do_clear =>
    dsimp only [oc_step, open_closed_t.clear]
    split_ifs with hg
    · exact ⟨rfl, by norm_num, fun i => by norm_num⟩
    · unfold oc_inv
      dsimp only
      refine ⟨by omega, by omega, fun i => ?_⟩
      have := hlist i
      omega

theorem oc_foldl_inv (l : List oc_op) : ∀ s : open_closed_t, oc_inv s → oc_inv (l.foldl oc_step s) := by
  induction l with
  | nil => intro s h; exact h
  | cons o rest ih => intro s h; exact ih (oc_step s o) (oc_step_inv o h)

theorem oc_run_inv (l : List oc_op) : oc_inv (oc_run l) := by
  apply oc_foldl_inv
  unfold oc_inv open_closed_t.init
  exact ⟨rfl, by norm_num, fun i => by norm_num⟩

/-- C4: in every reachable state, immediately after `clear` every index reads
as neither open nor closed (the fresh stamps are distinguishable from every
stale value), and `clear` rewrites the array only when the marker is within 2
of `UINT_MAX`, merely bumping the marker by 2 otherwise. -/
theorem open_closed_clear_correct (l : List oc_op) (i : Nat) :
    (oc_run l).clear.is_open i = false
    ∧ (oc_run l).clear.is_closed i = false
    ∧ (oc_run l).clear.list
        = (if 4294967295 - 2 ≤ (oc_run l).marker then (fun _ => 0) else (oc_run l).list)
    ∧ (oc_run l).clear.marker
        = (if 4294967295 - 2 ≤ (oc_run l).marker then 1
           else ((oc_run l).marker + 2) % 4294967296) := by
  obtain ⟨hodd, hle, hlist⟩ := oc_run_inv l
  have hi := hlist i
  unfold open_closed_t.clear open_closed_t.is_open open_closed_t.is_closed
  split_ifs with hg
  · refine ⟨by norm_num, by norm_num, rfl, rfl⟩
  · refine ⟨?_, ?_, rfl, rfl⟩
    · dsimp only
      simp only [beq_eq_false_iff_ne, ne_eq]
      omega
    · dsimp only
      simp only [beq_eq_false_iff_ne, ne_eq]
      omega

/-- C5: in every reachable state, no index is simultaneously open and closed;
`open` makes an index open and not closed, and `close` makes it closed and
not open. -/
theorem open_closed_exclusive (l : List oc_op) (i : Nat) :
    (¬((oc_run l).is_open i = true ∧ (oc_run l).is_closed i = true))
    ∧ ((oc_run l).open' i).is_open i = true
    ∧ ((oc_run l).open' i).is_closed i = false
    ∧ ((oc_run l).close i).is_closed i = true
    ∧ ((oc_run l).close i).is_open i = false := by
  obtain ⟨hodd, hle, hlist⟩ := oc_run_inv l
  have hne1 : (oc_run l).marker ≠ ((oc_run l).marker + 1) % 4294967296 := by omega
  have hopen_list : ((oc_run l).open' i).list i = (oc_run l).marker := by
    unfold open_closed_t.open'
    simp
  have hclose_list : ((oc_run l).close i).list i = ((oc_run l).marker + 1) % 4294967296 := by
    unfold open_closed_t.close
    simp
  have hopen_marker : ((oc_run l).open' i).marker = (oc_run l).marker := rfl
  have hclose_marker : ((oc_run l).close i).marker = (oc_run l).marker := rfl
  refine ⟨?_, ?_, ?_, ?_, ?_⟩
  · rintro ⟨h1, h2⟩
    unfold open_closed_t.is_open at h1
    unfold open_closed_t.is_closed at h2
    rw [beq_iff_eq] at h1 h2
    omega
  · unfold open_closed_t.is_open
    rw [beq_iff_eq, hopen_list, hopen_marker]
  · unfold open_closed_t.is_closed
    rw [beq_eq_false_iff_ne, hopen_list, hopen_marker]
    exact hne1
  · unfold open_closed_t.is_closed
    rw [beq_iff_eq, hclose_list, hclose_marker]
  · unfold open_closed_t.is_open
    rw [beq_eq_false_iff_ne, hclose_list, hclose_marker]
    exact Ne.symm hne1

/-- The priority queue `heap_t` (instantiated in the path finder with
`index_t = pos_index_t`, `priority_t = cost_t`, `capacity = 2500 * 16`).
`priorities` is the per-index priority array (capacity entries) and `heap`
the 1-based slot array, which in the source is hard-coded to
`std::array<index_t, 2500>` independently of `capacity`. -/
structure heap_t where
  priorities : Nat → Nat
  heap : Nat → Nat
  size_ : Nat

/-- `std::swap` of two cells of an array modelled as a function. -/
def swapF (f : Nat → Nat) (a b : Nat) : Nat → Nat :=
  fun j => if j = a then f b else if j = b then f a else f j

/-- `heap_t::heap_t()`: occupancy zero (the C++ arrays start indeterminate;
they are modelled as zero, and no theorem depends on the initial contents). -/
def heap_t.init : heap_t := ⟨fun _ => 0, fun _ => 0, 0⟩

/-- `heap_t::empty`. -/
def heap_t.empty (h : heap_t) : Bool := h.size_ == 0

/-- `heap_t::bubble_up`: sift the entry at slot `ii` up while it is `≤` its
parent.  The C++ `while (ii != 1)` loop is modelled with explicit fuel; every
caller passes `fuel = ii`, which bounds the number of halvings of `ii ≥ 1`
and so never runs out before the loop exits. -/
def bubble_up (pri : Nat → Nat) (fuel : Nat) (heap : Nat → Nat) (ii : Nat) : Nat → Nat :=
  match fuel with
  | 0 => heap
  | fuel + 1 =>
    if ii ≠ 1 then
      if pri (heap ii) ≤ pri (heap (ii / 2)) then
        bubble_up pri fuel (swapF heap ii (ii / 2)) (ii / 2)
      else heap
    else heap

/-- `heap_t::insert`: throws (modelled as `none`) when `size_` has reached
`heap.size() - 1 = 2500 - 1`; otherwise records the priority, appends the
index at slot `size_ + 1` and sifts it up. -/
def heap_t.insert (h : heap_t) (index priority : Nat) : Option heap_t :=
  if h.size_ = 2500 - 1 then none
  else
    let pri := fun i => if i = index then priority else h.priorities i
    let size := h.size_ + 1
    let hp := fun j => if j = size then index else h.heap j
    some ⟨pri, bubble_up pri size hp size, size⟩

/-- The child slot selected by one iteration of the sift-down loop in
`heap_t::pop`: starting from `vv = uu`, move to the left child if the parent
priority is `≥` it, then to the right child if the current pick is `≥` it,
guarded by the occupancy checks of the source. -/
def childSel (pri : Nat → Nat) (size : Nat) (heap : Nat → Nat) (uu : Nat) : Nat :=
  if 2 * uu + 1 ≤ size then
    let v1 := if pri (heap uu) ≥ pri (heap (2 * uu)) then 2 * uu else uu
    if pri (heap v1) ≥ pri (heap (2 * uu + 1)) then 2 * uu + 1 else v1
  else if 2 * uu ≤ size then
    if pri (heap uu) ≥ pri (heap (2 * uu)) then 2 * uu else uu
  else uu

/-- The sift-down loop of `heap_t::pop`, modelled with explicit fuel; `pop`
passes `fuel = size`, which bounds the iteration count since `uu` at least
doubles each round and stays `≤ size`. -/
def siftDown (pri : Nat → Nat) (size : Nat) (fuel : Nat) (heap : Nat → Nat) (uu : Nat) : Nat → Nat :=
  match fuel with
  | 0 => heap
  | fuel + 1 =>
    let vv := childSel pri size heap uu
    if uu ≠ vv then siftDown pri size fuel (swapF heap uu vv) vv
    else heap

/-- `heap_t::pop`: return slot 1's entry, move the last entry to slot 1,
decrement occupancy and sift down from the root. -/
def heap_t.pop (h : heap_t) : (Nat × Nat) × heap_t :=
  let ret := (h.heap 1, h.priorities (h.heap 1))
  let hp := fun j => if j = 1 then h.heap h.size_ else h.heap j
  let size := h.size_ - 1
  (ret, ⟨h.priorities, siftDown h.priorities size size hp 1, size⟩)

/-- The body executed by `heap_t::update` once the scan has found `index` at
slot `ii`: store the new priority and sift slot `ii` up. -/
def heap_t.updateAt (h : heap_t) (index priority : Nat) (ii : Nat) : heap_t :=
  let pri := fun i => if i = index then priority else h.priorities i
  ⟨pri, bubble_up pri ii h.heap ii, h.size_⟩

/-- The scan loop of `heap_t::update`: `ii` runs from `size_` down to 1 and
stops at the first slot holding `index`; no match leaves the queue
unchanged. -/
def heap_t.updateScan (h : heap_t) (index priority : Nat) : Nat → heap_t
  | 0 => h
  | ii + 1 =>
    if h.heap (ii + 1) = index then h.updateAt index priority (ii + 1)
    else h.updateScan index priority ii

/-- `heap_t::update`. -/
def heap_t.update (h : heap_t) (index priority : Nat) : heap_t :=
  h.updateScan index priority h.size_

/-- `heap_t::clear`. -/
def heap_t.clear (h : heap_t) : heap_t := ⟨h.priorities, h.heap, 0⟩

/-- The binary min-heap invariant on slots `1..size`: every non-root slot's
priority is at least its parent's. -/
def heapInv (pri heap : Nat → Nat) (size : Nat) : Prop :=
  ∀ j, j < size + 1 → 2 ≤ j → pri (heap (j / 2)) ≤ pri (heap j)

instance heapInv.decidable (pri heap : Nat → Nat) (size : Nat) : Decidable (heapInv pri heap size) :=
  inferInstanceAs (Decidable (∀ j, j < size + 1 → 2 ≤ j → pri (heap (j / 2)) ≤ pri (heap j)))

/-- The multiset of slot positions `1..size`. -/
def posMS (size : Nat) : Multiset Nat :=
  ((List.range size).map (fun j => j + 1) : List Nat)

/-- The multiset of indices stored in heap slots `1..size`. -/
def heapMS (heap : Nat → Nat) (size : Nat) : Multiset Nat :=
  (posMS size).map heap

theorem swapF_left (f : Nat → Nat) (a b : Nat) : swapF f a b a = f b := by
  unfold swapF
  simp

theorem swapF_right (f : Nat → Nat) (a b : Nat) (h : b ≠ a) : swapF f a b b = f a := by
  unfold swapF
  simp [h]

theorem swapF_other (f : Nat → Nat) (a b x : Nat) (h1 : x ≠ a) (h2 : x ≠ b) : swapF f a b x = f x := by
  unfold swapF
  simp [h1, h2]

theorem posMS_mem (size x : Nat) : x ∈ posMS size ↔ 1 ≤ x ∧ x ≤ size := by
  unfold posMS
  simp only [Multiset.mem_coe, List.mem_map, List.mem_range]
  constructor
  · rintro ⟨j, hj, rfl⟩
    omega
  · intro hx
    exact ⟨x - 1, by omega, by omega⟩

theorem posMS_nodup (size : Nat) : (posMS size).Nodup := by
  unfold posMS
  rw [Multiset.coe_nodup]
  exact (List.nodup_range size).map (fun a b hab => by omega)

theorem map_swapF (f : Nat → Nat) (a b : Nat) (s : Multiset Nat)
    (ha : a ∈ s) (hb : b ∈ s) (hnd : s.Nodup) :
    Multiset.map (swapF f a b) s = Multiset.map f s := by
  rcases eq_or_ne a b with rfl | hab
  · refine Multiset.map_congr rfl (fun x _ => ?_)
    unfold swapF
    split_ifs with h
    · rw [h]
    · rfl
  · obtain ⟨t, rfl⟩ := Multiset.exists_cons_of_mem ha
    have hb' : b ∈ t := by
      rcases Multiset.mem_cons.mp hb with h | h
      · exact absurd h.symm hab
      · exact h
    obtain ⟨u, rfl⟩ := Multiset.exists_cons_of_mem hb'
    rw [Multiset.nodup_cons] at hnd
    obtain ⟨hna, hnd2⟩ := hnd
    rw [Multiset.nodup_cons] at hnd2
    obtain ⟨hnb, _⟩ := hnd2
    have hau : a ∉ u := fun hx => hna (Multiset.mem_cons_of_mem hx)
    simp only [Multiset.map_cons]
    rw [swapF_left, swapF_right f a b (Ne.symm hab)]
    rw [Multiset.map_congr rfl (fun x hx => swapF_other f a b x
      (fun he => hau (he ▸ hx)) (fun he => hnb (he ▸ hx)))]
    exact Multiset.cons_swap (f b) (f a) (Multiset.map f u)

theorem heapMS_swapF (f : Nat → Nat) (size a b : Nat)
    (ha1 : 1 ≤ a) (ha2 : a ≤ size) (hb1 : 1 ≤ b) (hb2 : b ≤ size) :
    heapMS (swapF f a b) size = heapMS f size :=
  map_swapF f a b (posMS size) ((posMS_mem size a).mpr ⟨ha1, ha2⟩)
    ((posMS_mem size b).mpr ⟨hb1, hb2⟩) (posMS_nodup size)

theorem childSel_spec (pri : Nat → Nat) (size : Nat) (heap : Nat → Nat) (uu : Nat)
    (h : childSel pri size heap uu ≠ uu) :
    uu < childSel pri size heap uu
    ∧ childSel pri size heap uu ≤ size
    ∧ childSel pri size heap uu / 2 = uu
    ∧ pri (heap (childSel pri size heap uu)) ≤ pri (heap uu)
    ∧ (∀ j, 2 ≤ j → j ≤ size → j / 2 = uu → pri (heap (childSel pri size heap uu)) ≤ pri (heap j)) := by
  simp only [childSel] at h ⊢
  split_ifs at h ⊢ <;>
    refine ⟨by omega, by omega, by omega, by omega, ?_⟩ <;>
    · intro j hj2 hjs hj2u
      have hj : j = 2 * uu ∨ j = 2 * uu + 1 := by omega
      rcases hj with rfl | rfl <;> omega

theorem childSel_eq_min (pri : Nat → Nat) (size : Nat) (heap : Nat → Nat) (uu : Nat)
    (h : childSel pri size heap uu = uu) :
    ∀ j, 2 ≤ j → j ≤ size → j / 2 = uu → pri (heap uu) ≤ pri (heap j) := by
  simp only [childSel] at h
  intro j hj2 hjs hj2u
  have hj : j = 2 * uu ∨ j = 2 * uu + 1 := by omega
  split_ifs at h <;> rcases hj with rfl | rfl <;> omega

/-- The state of the slot array during sift-down: the heap property holds at
every edge whose parent is not the hole `uu`, and the hole's parent (when it
exists) already dominates the hole's children. -/
def almostHeap (pri heap : Nat → Nat) (size uu : Nat) : Prop :=
  (∀ j, 2 ≤ j → j ≤ size → j / 2 ≠ uu → pri (heap (j / 2)) ≤ pri (heap j))
  ∧ (∀ j, 2 ≤ j → j ≤ size → j / 2 = uu → 2 ≤ uu → pri (heap (uu / 2)) ≤ pri (heap j))

theorem almostHeap_swap (pri heap : Nat → Nat) (size uu : Nat) (h1 : 1 ≤ uu)
    (hAH : almostHeap pri heap size uu) (hne : childSel pri size heap uu ≠ uu) :
    almostHeap pri (swapF heap uu (childSel pri size heap uu)) size (childSel pri size heap uu) := by
  obtain ⟨hlt, hcs, hc2, hcle, hcmin⟩ := childSel_spec pri size heap uu hne
  set c := childSel pri size heap uu with hc
  obtain ⟨hA1, hA2⟩ := hAH
  constructor
  · intro j hj2 hjs hjne
    rcases eq_or_ne j c with hjc | hjc
    · rw [hjc, hc2, swapF_left, swapF_right heap uu c hne]
      exact hcle
    · rcases eq_or_ne j uu with hju | hju
      · have huu2 : 2 ≤ uu := hju ▸ hj2
        rw [hju, swapF_other heap uu c (uu / 2) (by omega) (by omega), swapF_left]
        exact hA2 c (by omega) hcs hc2 huu2
      · rw [swapF_other heap uu c j hju hjc]
        rcases eq_or_ne (j / 2) uu with hj2u | hj2u
        · rw [hj2u, swapF_left]
          exact hcmin j hj2 hjs hj2u
        · rw [swapF_other heap uu c (j / 2) hj2u hjne]
          exact hA1 j hj2 hjs hj2u
  · intro j hj2 hjs hj2c hcge2
    rw [hc2, swapF_left, swapF_other heap uu c j (by omega) (by omega)]
    have hstep := hA1 j hj2 hjs (by omega)
    rwa [hj2c] at hstep

theorem siftDown_heapInv (pri : Nat → Nat) (size : Nat) :
    ∀ fuel heap uu, 1 ≤ uu → size + 1 - uu ≤ fuel → almostHeap pri heap size uu →
      heapInv pri (siftDown pri size fuel heap uu) size := by
  intro fuel
  induction fuel with
  | zero =>
    intro heap uu h1 hfuel hAH j hjs hj2
    exact hAH.1 j hj2 (by omega) (by omega)
  | succ fuel ih =>
    intro heap uu h1 hfuel hAH
    simp only [siftDown]
    rcases eq_or_ne (childSel pri size heap uu) uu with he | hne
    · rw [if_neg (by omega)]
      intro j hjs hj2
      rcases eq_or_ne (j / 2) uu with hj2u | hj2u
      · rw [hj2u]
        exact childSel_eq_min pri size heap uu he j hj2 (by omega) hj2u
      · exact hAH.1 j hj2 (by omega) hj2u
    · obtain ⟨hlt, hcs, hc2, hcle, hcmin⟩ := childSel_spec pri size heap uu hne
      rw [if_pos (Ne.symm hne)]
      exact ih (swapF heap uu (childSel pri size heap uu)) (childSel pri size heap uu)
        (by omega) (by omega) (almostHeap_swap pri heap size uu h1 hAH hne)

theorem siftDown_heapMS (pri : Nat → Nat) (size : Nat) :
    ∀ fuel heap uu, 1 ≤ uu → heapMS (siftDown pri size fuel heap uu) size = heapMS heap size := by
  intro fuel
  induction fuel with
  | zero => intro heap uu h1; rfl
  | succ fuel ih =>
    intro heap uu h1
    simp only [siftDown]
    rcases eq_or_ne (childSel pri size heap uu) uu with he | hne
    · rw [if_neg (by omega)]
    · obtain ⟨hlt, hcs, hc2, hcle, hcmin⟩ := childSel_spec pri size heap uu hne
      rw [if_pos (Ne.symm hne)]
      rw [ih (swapF heap uu (childSel pri size heap uu)) (childSel pri size heap uu) (by omega)]
      exact heapMS_swapF heap size uu (childSel pri size heap uu) h1 (by omega) (by omega) hcs

theorem heapInv_root_min (pri heap : Nat → Nat) (size : Nat) (hinv : heapInv pri heap size) :
    ∀ j, 1 ≤ j → j ≤ size → pri (heap 1) ≤ pri (heap j) := by
  intro j
  induction j using Nat.strong_induction_on with
  | _ j ih =>
    intro hj1 hjs
    rcases Nat.lt_or_ge j 2 with hj | hj
    · have hje : j = 1 := by omega
      rw [hje]
    · exact le_trans (ih (j / 2) (by omega) (by omega) (by omega)) (hinv j (by omega) hj)

theorem heapMS_coe (f : Nat → Nat) (k : Nat) :
    heapMS f k = (((List.range k).map (fun j => f (j + 1)) : List Nat) : Multiset Nat) := by
  unfold heapMS posMS
  rw [Multiset.map_coe, List.map_map]
  rfl

theorem heapMS_congr (f g : Nat → Nat) (size : Nat)
    (h : ∀ j, 1 ≤ j → j ≤ size → f j = g j) : heapMS f size = heapMS g size := by
  refine Multiset.map_congr rfl (fun x hx => ?_)
  have hb := (posMS_mem size x).mp hx
  exact h x hb.1 hb.2

theorem heapMS_succ (f : Nat → Nat) (m : Nat) : heapMS f (m + 1) = f (m + 1) ::ₘ heapMS f m := by
  rw [heapMS_coe, heapMS_coe, List.range_succ, List.map_append, Multiset.cons_coe]
  rw [Multiset.coe_eq_coe]
  exact List.perm_append_singleton _ _

theorem heapMS_one_cons (f : Nat → Nat) (m : Nat) :
    heapMS f (m + 1) = f 1 ::ₘ heapMS (fun j => f (j + 1)) m := by
  rw [heapMS_coe, heapMS_coe, List.range_succ_eq_map, List.map_cons, List.map_map, Multiset.cons_coe]
  rfl

theorem pop_heapMS (heap : Nat → Nat) (size : Nat) (hs : 1 ≤ size) :
    heap 1 ::ₘ heapMS (fun j => if j = 1 then heap size else heap j) (size - 1) = heapMS heap size := by
  obtain ⟨m, rfl⟩ : ∃ m, size = m + 1 := ⟨size - 1, by omega⟩
  simp only [Nat.add_sub_cancel]
  cases m with
  | zero => rfl
  | succ n =>
    have h1 : heapMS (fun j => if j = 1 then heap (n + 1 + 1) else heap j) (n + 1)
        = heap (n + 1 + 1) ::ₘ heapMS (fun j => heap (j + 1)) n := by
      rw [heapMS_one_cons]
      refine congrArg₂ Multiset.cons (by norm_num) (heapMS_congr _ _ n (fun j hj1 hj2 => ?_))
      dsimp only
      rw [if_neg (by omega)]
    have h2 : heapMS heap (n + 1 + 1) = heap 1 ::ₘ heapMS (fun j => heap (j + 1)) (n + 1) :=
      heapMS_one_cons heap (n + 1)
    rw [h1, h2, heapMS_succ]

theorem pop_initial_AH (pri heap : Nat → Nat) (size : Nat) (hinv : heapInv pri heap size) :
    almostHeap pri (fun j => if j = 1 then heap size else heap j) (size - 1) 1 := by
  constructor
  · intro j hj2 hjs hj2ne
    dsimp only
    rw [if_neg (by omega), if_neg (by omega)]
    exact hinv j (by omega) hj2
  · intro j hj2 hjs hj2e h2u
    omega

/-- What `pop` achieves on a non-empty queue satisfying the heap invariant:
it returns slot 1's entry, decrements occupancy, leaves priorities untouched,
returns a priority that is `≤` the priority of every remaining entry, leaves
the remaining slots a heap again, and the old contents are exactly the
returned index plus the remaining contents. -/
def popSpec (h : heap_t) : Prop :=
  h.pop.1 = (h.heap 1, h.priorities (h.heap 1))
  ∧ h.pop.2.size_ = h.size_ - 1
  ∧ h.pop.2.priorities = h.priorities
  ∧ (∀ x, x ∈ heapMS h.pop.2.heap h.pop.2.size_ → h.pop.1.2 ≤ h.pop.2.priorities x)
  ∧ heapInv h.pop.2.priorities h.pop.2.heap h.pop.2.size_
  ∧ h.pop.1.1 ::ₘ heapMS h.pop.2.heap h.pop.2.size_ = heapMS h.heap h.size_

/-- C6: on every non-empty queue satisfying the min-heap invariant, `pop`
removes and returns an entry of minimal priority, decreases occupancy by
exactly one, and the remaining entries again satisfy the min-heap
invariant. -/
theorem heap_pop_correct (h : heap_t) (hpos : 0 < h.size_)
    (hinv : heapInv h.priorities h.heap h.size_) : popSpec h := by
  have hMS : h.pop.1.1 ::ₘ heapMS h.pop.2.heap h.pop.2.size_ = heapMS h.heap h.size_ := by
    show h.heap 1 ::ₘ heapMS
        (siftDown h.priorities (h.size_ - 1) (h.size_ - 1)
          (fun j => if j = 1 then h.heap h.size_ else h.heap j) 1) (h.size_ - 1)
      = heapMS h.heap h.size_
    rw [siftDown_heapMS h.priorities (h.size_ - 1) (h.size_ - 1) _ 1 (by omega)]
    exact pop_heapMS h.heap h.size_ hpos
  refine ⟨rfl, rfl, rfl, ?_, ?_, hMS⟩
  · intro x hx
    have hx2 : x ∈ heapMS h.heap h.size_ := by
      rw [← hMS]
      exact Multiset.mem_cons_of_mem hx
    obtain ⟨p, hp, rfl⟩ := Multiset.mem_map.mp hx2
    have hpmem := (posMS_mem h.size_ p).mp hp
    exact heapInv_root_min h.priorities h.heap h.size_ hinv p hpmem.1 hpmem.2
  · show heapInv h.priorities
      (siftDown h.priorities (h.size_ - 1) (h.size_ - 1)
        (fun j => if j = 1 then h.heap h.size_ else h.heap j) 1) (h.size_ - 1)
    exact siftDown_heapInv h.priorities (h.size_ - 1) (h.size_ - 1) _ 1 (by omega) (by omega)
      (pop_initial_AH h.priorities h.heap h.size_ hinv)

/-- A small concrete queue used to instantiate `heap_pop_correct`. -/
def popW : heap_t := ⟨fun i => i, fun j => j, 3⟩

theorem heap_pop_correct_witness :
    (0 < popW.size_ ∧ heapInv popW.priorities popW.heap popW.size_) ∧ popSpec popW :=
  ⟨⟨by decide, by decide⟩, heap_pop_correct popW (by decide) (by decide)⟩

/-- The state of the slot array during sift-up: the heap property holds at
every edge into a slot other than `ii`, and `ii`'s parent (when `ii` is not
the root) already dominates `ii`'s children. -/
def almostHeapUp (pri heap : Nat → Nat) (size ii : Nat) : Prop :=
  (∀ j, 2 ≤ j → j ≤ size → j ≠ ii → pri (heap (j / 2)) ≤ pri (heap j))
  ∧ (2 ≤ ii → ∀ j, 2 ≤ j → j ≤ size → j / 2 = ii → pri (heap (ii / 2)) ≤ pri (heap j))

theorem almostHeapUp_swap (pri heap : Nat → Nat) (size ii : Nat) (h2 : 2 ≤ ii) (hs : ii ≤ size)
    (hAH : almostHeapUp pri heap size ii) (hcmp : pri (heap ii) ≤ pri (heap (ii / 2))) :
    almostHeapUp pri (swapF heap ii (ii / 2)) size (ii / 2) := by
  obtain ⟨hA1, hA2⟩ := hAH
  constructor
  · intro j hj2 hjs hjp
    rcases eq_or_ne j ii with hji | hji
    · rw [hji, swapF_left, swapF_right heap ii (ii / 2) (by omega)]
      exact hcmp
    · rw [swapF_other heap ii (ii / 2) j hji hjp]
      rcases eq_or_ne (j / 2) ii with hj2i | hj2i
      · rw [hj2i, swapF_left]
        exact hA2 h2 j hj2 hjs hj2i
      · rcases eq_or_ne (j / 2) (ii / 2) with hj2p | hj2p
        · rw [hj2p, swapF_right heap ii (ii / 2) (by omega)]
          exact le_trans hcmp (by
            have hstep := hA1 j hj2 hjs hji
            rwa [hj2p] at hstep)
        · rw [swapF_other heap ii (ii / 2) (j / 2) hj2i hj2p]
          exact hA1 j hj2 hjs hji
  · intro hp2 j hj2 hjs hj2p
    have hpp : ii / 2 / 2 ≠ ii := by omega
    have hpp2 : ii / 2 / 2 ≠ ii / 2 := by omega
    rw [swapF_other heap ii (ii / 2) (ii / 2 / 2) hpp hpp2]
    rcases eq_or_ne j ii with hji | hji
    · rw [hji, swapF_left]
      exact hA1 (ii / 2) hp2 (by omega) (by omega)
    · rw [swapF_other heap ii (ii / 2) j hji (by omega)]
      have hs1 := hA1 (ii / 2) hp2 (by omega) (by omega)
      have hs2 := hA1 j hj2 hjs hji
      rw [hj2p] at hs2
      exact le_trans hs1 hs2

theorem bubble_up_heapInv (pri : Nat → Nat) (size : Nat) :
    ∀ fuel ii heap, 1 ≤ ii → ii ≤ fuel → ii ≤ size → almostHeapUp pri heap size ii →
      heapInv pri (bubble_up pri fuel heap ii) size := by
  intro fuel
  induction fuel with
  | zero =>
    intro ii heap h1 hfuel hs hAH
    omega
  | succ fuel ih =>
    intro ii heap h1 hfuel hs hAH
    simp only [bubble_up]
    rcases eq_or_ne ii 1 with hii1 | hii1
    · rw [if_neg (by omega)]
      intro j hjs hj2
      exact hAH.1 j hj2 (by omega) (by omega)
    · rw [if_pos hii1]
      have h2 : 2 ≤ ii := by omega
      split_ifs with hcmp
      · exact ih (ii / 2) (swapF heap ii (ii / 2)) (by omega) (by omega) (by omega)
          (almostHeapUp_swap pri heap size ii h2 hs ⟨hAH.1, hAH.2⟩ hcmp)
      · intro j hjs hj2
        rcases eq_or_ne j ii with hji | hji
        · rw [hji]
          omega
        · exact hAH.1 j hj2 (by omega) hji

theorem bubble_up_heapMS (pri : Nat → Nat) (size : Nat) :
    ∀ fuel ii heap, 1 ≤ ii → ii ≤ size → heapMS (bubble_up pri fuel heap ii) size = heapMS heap size := by
  intro fuel
  induction fuel with
  | zero => intro ii heap h1 hs; rfl
  | succ fuel ih =>
    intro ii heap h1 hs
    simp only [bubble_up]
    rcases eq_or_ne ii 1 with hii1 | hii1
    · rw [if_neg (by omega)]
    · rw [if_pos hii1]
      split_ifs with hcmp
      · rw [ih (ii / 2) (swapF heap ii (ii / 2)) (by omega) (by omega)]
        exact heapMS_swapF heap size ii (ii / 2) h1 hs (by omega) (by omega)
      · rfl

theorem updateScan_found (h : heap_t) (index priority : Nat) (ii : Nat) (hii1 : 1 ≤ ii) :
    ∀ k, ii ≤ k → h.heap ii = index → (∀ j, ii < j → j ≤ k → h.heap j ≠ index) →
      h.updateScan index priority k = h.updateAt index priority ii := by
  intro k
  induction k with
  | zero =>
    intro hk hfound habove
    exact absurd hk (by omega)
  | succ k ih =>
    intro hk hfound habove
    simp only [heap_t.updateScan]
    split_ifs with hhit
    · have hke : k + 1 = ii := by
        by_contra hne
        exact habove (k + 1) (by omega) (by omega) hhit
      rw [hke]
    · have hne : ii ≠ k + 1 := fun he => hhit (he ▸ hfound)
      exact ih (by omega) hfound (fun j hj1 hj2 => habove j hj1 (by omega))

theorem update_initial_AHup (pri heap : Nat → Nat) (size index priority ii : Nat)
    (hinv : heapInv pri heap size)
    (hii1 : 1 ≤ ii) (hii2 : ii ≤ size) (hfound : heap ii = index)
    (huniq : ∀ j, 1 ≤ j → j ≤ size → heap j = index → j = ii)
    (hle : priority ≤ pri index) :
    almostHeapUp (fun i => if i = index then priority else pri i) heap size ii := by
  constructor
  · intro j hj2 hjs hji
    have hja : heap j ≠ index := fun he => hji (huniq j (by omega) hjs he)
    dsimp only
    rcases eq_or_ne (heap (j / 2)) index with hpa | hpa
    · rw [if_neg hja, if_pos hpa]
      calc priority ≤ pri index := hle
        _ = pri (heap (j / 2)) := by rw [hpa]
        _ ≤ pri (heap j) := hinv j (by omega) hj2
    · rw [if_neg hja, if_neg hpa]
      exact hinv j (by omega) hj2
  · intro h2 j hj2 hjs hj2i
    have hpa : heap (ii / 2) ≠ index := by
      intro he
      have hu := huniq (ii / 2) (by omega) (by omega) he
      omega
    have hja : heap j ≠ index := by
      intro he
      have hu := huniq j (by omega) hjs he
      omega
    dsimp only
    rw [if_neg hja, if_neg hpa]
    refine le_trans (hinv ii (by omega) h2) ?_
    have hstep := hinv j (by omega) hj2
    rwa [hj2i] at hstep

/-- What `update(index, priority)` achieves when the queue satisfies the heap
invariant, holds `index` in exactly one slot, and the new priority does not
exceed the current one: the priority is stored, occupancy and the stored
index multiset are unchanged, and the heap invariant is re-established (by
sift-up alone). -/
def updateSpec (h : heap_t) (index priority : Nat) : Prop :=
  (h.update index priority).priorities index = priority
  ∧ (h.update index priority).size_ = h.size_
  ∧ heapMS (h.update index priority).heap h.size_ = heapMS h.heap h.size_
  ∧ heapInv (h.update index priority).priorities (h.update index priority).heap h.size_

/-- C7 (amended): on a queue satisfying the min-heap invariant in which
`index` occupies exactly one slot, and with a new priority `≤` the current
one, `update` stores the new priority, leaves occupancy and the stored index
multiset unchanged, and re-establishes the min-heap invariant. -/
theorem heap_update_correct (h : heap_t) (index priority ii : Nat)
    (hinv : heapInv h.priorities h.heap h.size_)
    (hii1 : 1 ≤ ii) (hii2 : ii ≤ h.size_) (hfound : h.heap ii = index)
    (huniq : ∀ j, 1 ≤ j → j ≤ h.size_ → h.heap j = index → j = ii)
    (hle : priority ≤ h.priorities index) :
    updateSpec h index priority := by
  have hscan : h.update index priority = h.updateAt index priority ii := by
    unfold heap_t.update
    exact updateScan_found h index priority ii hii1 h.size_ hii2 hfound
      (fun j hj1 hj2 hj3 => by
        have hu := huniq j (by omega) hj2 hj3
        omega)
  unfold updateSpec
  rw [hscan]
  simp only [heap_t.updateAt]
  refine ⟨by simp, by trivial, ?_, ?_⟩
  · exact bubble_up_heapMS _ h.size_ ii ii h.heap hii1 hii2
  · exact bubble_up_heapInv _ h.size_ ii ii h.heap hii1 (le_refl ii) hii2
      (update_initial_AHup h.priorities h.heap h.size_ index priority ii
        hinv hii1 hii2 hfound huniq hle)

/-- A small concrete queue used to instantiate `heap_update_correct`. -/
def updW : heap_t := ⟨fun i => i, fun j => j, 3⟩

theorem heap_update_correct_witness :
    (heapInv updW.priorities updW.heap updW.size_
      ∧ 1 ≤ 2 ∧ 2 ≤ updW.size_ ∧ updW.heap 2 = 2
      ∧ 1 ≤ updW.priorities 2)
    ∧ updateSpec updW 2 1 :=
  ⟨⟨by decide, by decide, by decide, by decide, by decide⟩,
    heap_update_correct updW 2 1 2 (by decide) (by decide) (by decide) (by decide)
      (fun j _ _ hj => hj) (by decide)⟩

/-- A queue holding index 3 in two slots (4 and 6), reachable by six plain
inserts, which satisfies the min-heap invariant. -/
def updCE : heap_t :=
  ⟨fun i => if i = 0 then 2 else if i = 1 then 3 else if i = 2 then 3
      else if i = 3 then 5 else if i = 4 then 4 else 0,
    fun j => if j = 1 then 0 else if j = 2 then 1 else if j = 3 then 2
      else if j = 4 then 3 else if j = 5 then 4 else if j = 6 then 3 else 0,
    6⟩

/-- C7 counterexample: the claim quantifies over every inv-satisfying queue
containing `idx`; on `updCE`, which contains index 3 twice, `update 3 1`
(with `1 ≤ current priority 5`) stores the priority and sifts one occurrence
up, but the result violates the min-heap invariant (slot 4 now holds
priority 1 under its slot-2 parent of priority 3), so the claim as stated is
false. -/
theorem heap_update_counterexample :
    heapInv updCE.priorities updCE.heap updCE.size_
    ∧ (1 ≤ 4 ∧ 4 ≤ updCE.size_ ∧ updCE.heap 4 = 3)
    ∧ 1 ≤ updCE.priorities 3
    ∧ (updCE.update 3 1).priorities 3 = 1
    ∧ (updCE.update 3 1).size_ = updCE.size_
    ∧ ¬ heapInv (updCE.update 3 1).priorities (updCE.update 3 1).heap (updCE.update 3 1).size_ :=
  ⟨by decide, by decide, by decide, by decide, by decide, by decide⟩

/-- Repeated `insert`, propagating the capacity error (`none`). -/
def insertAll : List (Nat × Nat) → heap_t → Option heap_t
  | [], h => some h
  | (i, p) :: rest, h =>
    match h.insert i p with
    | none => none
    | some h2 => insertAll rest h2

theorem insert_size (h : heap_t) (index priority : Nat) (hs : h.size_ ≠ 2500 - 1) :
    ∃ h2, h.insert index priority = some h2 ∧ h2.size_ = h.size_ + 1 := by
  unfold heap_t.insert
  rw [if_neg hs]
  exact ⟨_, rfl, rfl⟩

theorem insertAll_size : ∀ (l : List (Nat × Nat)) (h : heap_t), h.size_ + l.length ≤ 2500 - 1 →
    ∃ h2, insertAll l h = some h2 ∧ h2.size_ = h.size_ + l.length := by
  intro l
  induction l with
  | nil =>
    intro h hlen
    exact ⟨h, rfl, by simp⟩
  | cons ip rest ih =>
    intro h hlen
    obtain ⟨i, p⟩ := ip
    rw [List.length_cons] at hlen
    obtain ⟨h2, he, hs2⟩ := insert_size h i p (by omega)
    simp only [insertAll, he]
    obtain ⟨h3, he3, hs3⟩ := ih h2 (by omega)
    refine ⟨h3, he3, ?_⟩
    rw [hs3, hs2, List.length_cons]
    omega

/-- C1 (amended): `insert` raises the capacity error exactly when occupancy
has reached `heap.size() - 1 = 2499` — the slot array is hard-coded to 2500
entries used 1-based, independently of the 40,000-entry `priorities`
capacity — and any insert with occupancy below 2499 succeeds, growing
occupancy by one. -/
theorem heap_insert_capacity_characterization (h : heap_t) (index priority : Nat) :
    (h.size_ = 2500 - 1 → h.insert index priority = none)
    ∧ (h.size_ ≠ 2500 - 1 → ∃ h2, h.insert index priority = some h2 ∧ h2.size_ = h.size_ + 1) := by
  constructor
  · intro hs
    unfold heap_t.insert
    rw [if_pos hs]
  · intro hs
    exact insert_size h index priority hs

/-- A queue at the hard-coded slot-array limit. -/
def insW : heap_t := ⟨fun _ => 0, fun _ => 0, 2499⟩

theorem heap_insert_capacity_characterization_witness :
    (insW.size_ = 2500 - 1 ∧ insW.insert 7 9 = none)
    ∧ (heap_t.init.size_ ≠ 2500 - 1
      ∧ ∃ h2, heap_t.init.insert 7 9 = some h2 ∧ h2.size_ = heap_t.init.size_ + 1) :=
  ⟨⟨by decide, (heap_insert_capacity_characterization insW 7 9).1 (by decide)⟩,
    ⟨by decide, (heap_insert_capacity_characterization heap_t.init 7 9).2 (by decide)⟩⟩

/-- 2499 distinct pending insertions. -/
def insSeq : List (Nat × Nat) := (List.range 2499).map (fun i => (i, 0))

/-- C1 counterexample: starting from a fresh queue, 2499 inserts all succeed,
leaving 2499 pending entries — far below the claimed 40,000-entry cap — yet
the very next insert raises the capacity error, because the slot array is
hard-coded to 2500 entries (used 1-based), not 2500 x 16. -/
theorem heap_insert_capacity_counterexample :
    (insertAll insSeq heap_t.init).map heap_t.size_ = some 2499
    ∧ 2499 < 40000
    ∧ (insertAll insSeq heap_t.init).bind (fun h => h.insert 2499 0) = none := by
  have hlen : insSeq.length = 2499 := by simp [insSeq]
  obtain ⟨h2, he, hs⟩ := insertAll_size insSeq heap_t.init (by simp [heap_t.init, hlen])
  have hs2 : h2.size_ = 2499 := by
    rw [hs, hlen]
    norm_num [heap_t.init]
  refine ⟨?_, by omega, ?_⟩
  · rw [he]
    simp [hs2]
  · rw [he]
    show h2.insert 2499 0 = none
    unfold heap_t.insert
    rw [if_pos (by omega)]
